import Mathlib

/-!
Verification of the worktree/branch/PR lifecycle core of the claude-issue-solver
CLI, shallowly embedded in Lean 4.  Strings from the TypeScript source are
modelled as `List Char`; the JavaScript string methods used by the source
(`toLowerCase`, `replace` with the concrete regexes of the source, `split`,
`slice`) are translated operation by operation.  External processes (git, the
gh CLI, the filesystem) are modelled at their interface boundary: their
observable outputs appear as explicit parameters, and mutating commands become
explicit state transformers.
-/

namespace ClaudeIssueSolver

/-! ## Character classes used by the regexes in src/utils/helpers.ts -/

/-- Membership in the regex character class [a-z0-9]. -/
def isLowerAlnum (c : Char) : Bool :=
  (97 ≤ c.toNat && c.toNat ≤ 122) || (48 ≤ c.toNat && c.toNat ≤ 57)

/-- Membership in the ASCII digit class, regex \d. -/
def isDigitChar (c : Char) : Bool :=
  48 ≤ c.toNat && c.toNat ≤ 57

/-- ASCII uppercase letters A-Z. -/
def isUpperAlpha (c : Char) : Bool :=
  65 ≤ c.toNat && c.toNat ≤ 90

/-- Per-character model of String.prototype.toLowerCase (ASCII fragment; the
issue titles the tool manipulates are ASCII, and every non-ASCII character is
mapped to a hyphen by the following replacement step either way). -/
def asciiToLower (c : Char) : Char :=
  if isUpperAlpha c then Char.ofNat (c.toNat + 32) else c

/-- One character of the global replacement of the negated class [a-z0-9] by a
hyphen: characters in the class are kept, every other character becomes a
hyphen. -/
def replaceNonAlnum (c : Char) : Char :=
  if isLowerAlnum c then c else '-'

/-- Whitespace class of the JavaScript regex escape \s (common members). -/
def isJsWhitespace (c : Char) : Bool :=
  c.toNat == 32 || c.toNat == 9 || c.toNat == 10 || c.toNat == 13 ||
  c.toNat == 11 || c.toNat == 12 || c.toNat == 160

/-! ## The slugify pipeline (src/utils/helpers.ts, slugify) -/

/-- Drop characters up to and including the first right bracket. -/
def dropThroughRBracket : List Char → List Char
  | [] => []
  | ']' :: rest => rest
  | _ :: rest => dropThroughRBracket rest

/-- Model of text.replace with the anchored lazy regex that removes a leading
bracketed tag followed by whitespace.  The match succeeds exactly when the text
starts with a left bracket and a right bracket occurs before any newline (the
regex dot does not match newlines); the lazy quantifier stops at the first
right bracket, and the trailing whitespace quantifier is greedy. -/
def stripLeadingBracket (l : List Char) : List Char :=
  match l with
  | '[' :: rest =>
    if (rest.takeWhile (fun c => c.toNat != 10)).contains ']' then
      (dropThroughRBracket rest).dropWhile isJsWhitespace
    else l
  | _ => l

/-- Model of the global replacement of hyphen runs by a single hyphen: every
maximal run of hyphens collapses to one hyphen. -/
def squeezeDashes : List Char → List Char
  | [] => []
  | [c] => [c]
  | c :: d :: rest =>
    if c == '-' && d == '-' then squeezeDashes (d :: rest)
    else c :: squeezeDashes (d :: rest)

/-- Drop a single leading hyphen, first half of the anchored boundary-hyphen
replacement. -/
def dropLeadingDash : List Char → List Char
  | [] => []
  | c :: rest => if c = '-' then rest else c :: rest

/-- Drop a single trailing hyphen, second half of the anchored boundary-hyphen
replacement. -/
def dropTrailingDash (l : List Char) : List Char :=
  if l.getLast? = some '-' then l.dropLast else l

/-- Model of the anchored boundary-hyphen replacement: the global anchored
alternation removes one leading and one trailing hyphen. -/
def trimDash (l : List Char) : List Char :=
  dropTrailingDash (dropLeadingDash l)

/-- Model of String.prototype.split on the hyphen separator: the empty string
splits to one empty field. -/
def splitOnDash : List Char → List (List Char)
  | [] => [[]]
  | c :: rest =>
    if c = '-' then [] :: splitOnDash rest
    else (splitOnDash rest).modifyHead (fun w => c :: w)

/-- Model of Array.prototype.join on the hyphen separator. -/
def joinDash : List (List Char) → List Char
  | [] => []
  | [w] => w
  | w :: ws => w ++ '-' :: joinDash ws

/-- Tail of the duplicate-word filter: each element is compared against its
immediate predecessor in the original array, as the source filter callback
does with the running index. -/
def dedupAdjAux (prev : List Char) : List (List Char) → List (List Char)
  | [] => []
  | w :: ws => if w = prev then dedupAdjAux w ws else w :: dedupAdjAux w ws

/-- Model of words.filter comparing each word with its predecessor: drops
every word equal to the immediately preceding word of the original array. -/
def dedupAdj : List (List Char) → List (List Char)
  | [] => []
  | w :: ws => w :: dedupAdjAux w ws

/-- The slug before the final truncation: bracket strip, lowercase, replace
non-alphanumerics with hyphens, collapse hyphen runs, trim boundary hyphens,
split into words, drop adjacent duplicate words, rejoin. -/
def preSlug (text : List Char) : List Char :=
  joinDash (dedupAdj (splitOnDash (trimDash (squeezeDashes
    (((stripLeadingBracket text).map asciiToLower).map replaceNonAlnum)))))

/-- slugify from src/utils/helpers.ts: the pipeline above followed by
slice(0, 30). -/
def slugify (text : List Char) : List Char :=
  (preSlug text).take 30

/-- The characters a slug may contain: lowercase alphanumerics and hyphens. -/
def isSlugChar (c : Char) : Bool := isLowerAlnum c || c == '-'

/-- Absence of adjacent hyphens. -/
def noDoubleDash : List Char → Bool
  | [] => true
  | c :: rest => !(c == '-' && rest.head? == some '-') && noDoubleDash rest

/-- Absence of adjacent duplicate words. -/
def noAdjDup : List (List Char) → Bool
  | [] => true
  | w :: ws => !(ws.head? == some w) && noAdjDup ws

/-! ## Naming layer (src/commands/solve.ts, lines 30-32) -/

/-- Branch name construction from solveCommand: the literal template
issue-N-slug, with N rendered in decimal. -/
def branchName (issueNumber : Nat) (title : List Char) : List Char :=
  "issue-".data ++ (Nat.repr issueNumber).data ++ '-' :: slugify title

/-! ## Worktree discovery (src/commands/clean.ts, getIssueWorktrees) -/

/-- The Worktree record of src/commands/clean.ts.  An empty branch marks an
orphaned folder. -/
structure Worktree where
  path : List Char
  branch : List Char
  issueNumber : List Char
deriving DecidableEq, Repr

/-- A directory entry as returned by readdirSync with file types. -/
structure DirEntry where
  name : List Char
  isDirectory : Bool
deriving DecidableEq, Repr

/-- Node path.join for an absolute parent directory and a plain entry name. -/
def pathJoin (parent name : List Char) : List Char :=
  parent ++ '/' :: name

/-- Model of String.prototype.includes: look for the pattern at each start
position from the left. -/
def listIncludes (pat : List Char) : List Char → Bool
  | [] => pat.isPrefixOf []
  | c :: rest => pat.isPrefixOf (c :: rest) || listIncludes pat rest

/-- Match of a branch name against the anchored pattern: the literal issue-,
one or more digits (captured), then a hyphen.  Returns the captured digit
run.  The quantifier is greedy and the following literal hyphen is not a
digit, so the capture is exactly the maximal digit run. -/
def matchIssueBranch (b : List Char) : Option (List Char) :=
  if "issue-".data.isPrefixOf b then
    let rest := b.drop 6
    let digits := rest.takeWhile isDigitChar
    if digits ≠ [] ∧ (rest.drop digits.length).head? = some '-' then some digits
    else none
  else none

/-- Match of the unanchored folder-name pattern projectName-issue-digits-hyphen
at the very start of the text. -/
def folderMatchAt (pn l : List Char) : Option (List Char) :=
  if (pn ++ "-issue-".data).isPrefixOf l then
    let rest := l.drop (pn.length + 7)
    let digits := rest.takeWhile isDigitChar
    if digits ≠ [] ∧ (rest.drop digits.length).head? = some '-' then some digits
    else none
  else none

/-- First-match semantics of the unanchored folder-name regex: try each start
position from the left, as the regex engine does. -/
def folderIssueMatch (pn : List Char) : List Char → Option (List Char)
  | [] => folderMatchAt pn []
  | c :: rest =>
    match folderMatchAt pn (c :: rest) with
    | some digits => some digits
    | none => folderIssueMatch pn rest

/-- The line-scanning loop over the porcelain worktree listing (clean.ts lines
60-84).  A worktree line updates the current path; a branch line whose branch
matches the issue pattern and whose current path contains
projectName-issue- emits a record.  Since each prefix test has passed, the
replace of the first occurrence of the prefix is a plain prefix drop. -/
def parseWorktreeLines (pn : List Char) : List (List Char) → List Char → List Worktree
  | [], _ => []
  | line :: rest, currentPath =>
    if "worktree ".data.isPrefixOf line then
      parseWorktreeLines pn rest (line.drop 9)
    else if "branch refs/heads/".data.isPrefixOf line then
      match matchIssueBranch (line.drop 18) with
      | some num =>
        if listIncludes (pn ++ "-issue-".data) currentPath then
          ⟨currentPath, line.drop 18, num⟩ :: parseWorktreeLines pn rest currentPath
        else parseWorktreeLines pn rest currentPath
      | none => parseWorktreeLines pn rest currentPath
    else parseWorktreeLines pn rest currentPath

/-- The orphaned-folder scan (clean.ts lines 88-109): a directory entry whose
name starts with projectName-issue- and whose joined path is not among the
already-found paths is emitted with an empty branch if the folder-name regex
captures an issue number. -/
def orphanScan (pn parentDir : List Char) (found : List (List Char))
    (entries : List DirEntry) : List Worktree :=
  entries.filterMap (fun e =>
    if e.isDirectory && (pn ++ "-issue-".data).isPrefixOf e.name
        && !(found.contains (pathJoin parentDir e.name)) then
      (folderIssueMatch pn e.name).map
        (fun num => ⟨pathJoin parentDir e.name, [], num⟩)
    else none)

/-- getIssueWorktrees from src/commands/clean.ts.  The porcelain listing and
the sibling-directory entries are the observable outputs of the git and
filesystem collaborators and appear as parameters. -/
def getIssueWorktrees (pn parentDir : List Char) (porcelain : List (List Char))
    (entries : List DirEntry) : List Worktree :=
  let reg := parseWorktreeLines pn porcelain []
  reg ++ orphanScan pn parentDir (reg.map (·.path)) entries

/-- The porcelain listing git produces for a list of registered worktrees,
one attached entry per (path, branch) pair: a worktree line, a HEAD line, a
branch ref line, and a blank separator line. -/
def porcelainOutput (registered : List (List Char × List Char)) : List (List Char) :=
  registered.flatMap (fun e =>
    ["worktree ".data ++ e.1, "HEAD 0000000".data, "branch refs/heads/".data ++ e.2, []])

/-- Modelled from the spec: the declarative reading of discovery, filtering the
registered (path, branch) pairs directly - every git-registered worktree whose
branch matches the issue pattern and whose path contains projectName-issue-,
with its parsed issue number. -/
def registeredSpecFilter (pn : List Char) : List (List Char × List Char) → List Worktree
  | [] => []
  | e :: rest =>
    match matchIssueBranch e.2 with
    | some num =>
      if listIncludes (pn ++ "-issue-".data) e.1 then
        ⟨e.1, e.2, num⟩ :: registeredSpecFilter pn rest
      else registeredSpecFilter pn rest
    | none => registeredSpecFilter pn rest

/-- Modelled from the spec: discovery as the union of the declaratively
filtered registered worktrees and the orphan scan over sibling directories
excluding already-matched paths. -/
def discoverIssueWorktreesSpec (pn parentDir : List Char)
    (registered : List (List Char × List Char)) (entries : List DirEntry) :
    List Worktree :=
  let reg := registeredSpecFilter pn registered
  reg ++ orphanScan pn parentDir (reg.map (·.path)) entries

/-! ## Status observation records (src/utils/github.ts interface types) -/

/-- The three PR states the tool distinguishes. -/
inductive PRState where
  | prOpen
  | prClosed
  | prMerged
deriving DecidableEq, Repr

/-- PRStatus of src/utils/github.ts. -/
structure PRStatus where
  number : Nat
  state : PRState
  url : List Char
deriving DecidableEq, Repr

/-- The two issue states. -/
inductive IssueState where
  | issueOpen
  | issueClosed
deriving DecidableEq, Repr

/-- IssueStatus of src/utils/github.ts. -/
structure IssueStatus where
  state : IssueState
deriving DecidableEq, Repr

/-- WorktreeWithStatus of src/commands/clean.ts. -/
structure WorktreeWithStatus extends Worktree where
  issueStatus : Option IssueStatus
  prStatus : Option PRStatus
deriving DecidableEq, Repr

/-- The seven status labels getStatusLabel can produce; the chalk colour
decoration around the label text is display-only and not modelled. -/
inductive StatusLabel where
  | orphanedFolder
  | prMergedLabel
  | prOpenLabel
  | prClosedLabel
  | issueClosedLabel
  | issueOpenLabel
  | unknownLabel
deriving DecidableEq, Repr

/-- getStatusLabel from src/commands/clean.ts lines 23-49: an empty branch
yields the orphaned label; otherwise a present PR status decides; otherwise a
present issue status decides; otherwise unknown. -/
def getStatusLabel (wt : WorktreeWithStatus) : StatusLabel :=
  if wt.branch = [] then .orphanedFolder
  else
    match wt.prStatus with
    | some pr =>
      match pr.state with
      | .prMerged => .prMergedLabel
      | .prOpen => .prOpenLabel
      | .prClosed => .prClosedLabel
    | none =>
      match wt.issueStatus with
      | some i =>
        match i.state with
        | .issueClosed => .issueClosedLabel
        | .issueOpen => .issueOpenLabel
      | none => .unknownLabel

/-- The status-fetch step of the bulk clean commands (clean.ts lines 134-140
and 451-457): the issue status is queried by parsed issue number, the PR
status only when the branch is nonempty, an orphan getting null. -/
def attachStatus (issueQ : List Char → Option IssueStatus)
    (prQ : List Char → Option PRStatus) (wt : Worktree) : WorktreeWithStatus :=
  { toWorktree := wt
  , issueStatus := issueQ wt.issueNumber
  , prStatus := if wt.branch = [] then none else prQ wt.branch }

/-- The merged test used for pre-selection, clean.ts line 148: the optional
chain prStatus?.state compared with the merged state. -/
def isMergedPR (wt : WorktreeWithStatus) : Bool :=
  match wt.prStatus with
  | some pr => pr.state == .prMerged
  | none => false

/-- The checked flag of each checkbox choice built by cleanAllCommand,
clean.ts line 152. -/
def cleanAllChecked (wt : WorktreeWithStatus) : Bool :=
  isMergedPR wt

/-- The automatic target list of cleanMergedCommand, clean.ts lines 461-467:
worktrees with a merged PR, then orphaned folders. -/
def cleanMergedToClean (wts : List WorktreeWithStatus) : List WorktreeWithStatus :=
  wts.filter isMergedPR ++ wts.filter (fun wt => wt.branch.isEmpty)

/-! ## Merge pre-selection (src/commands/merge.ts, lines 109-139) -/

/-- The review decisions distinguished by the switch in mergeCommand; any
other value, including null, falls to the default branch and is modelled as
none at the use site. -/
inductive ReviewDecision where
  | approved
  | changesRequested
  | reviewRequired
deriving DecidableEq, Repr

/-- The mergeable field values the gh CLI reports. -/
inductive MergeableState where
  | mergeableClean
  | conflicting
  | unknownMergeable
deriving DecidableEq, Repr

/-- The OpenPR record of src/commands/merge.ts. -/
structure OpenPR where
  number : Nat
  title : List Char
  headRefName : List Char
  issueNumber : Option Nat
  reviewDecision : Option ReviewDecision
  mergeable : MergeableState
deriving DecidableEq, Repr

/-- The canMerge flag computed per PR in mergeCommand lines 112-131 and used
as the checked flag of the selection choice (line 137): only the APPROVED
switch case can set it, and there it requires the mergeable field to equal
MERGEABLE. -/
def mergeChecked (pr : OpenPR) : Bool :=
  match pr.reviewDecision with
  | some .approved => pr.mergeable == .mergeableClean
  | _ => false

/-- Modelled from the spec: mergeable classification as the words say it -
approved review decision and no reported merge conflicts. -/
def specMergeablePreselect (pr : OpenPR) : Bool :=
  pr.reviewDecision == some .approved && pr.mergeable != .conflicting

/-! ## Code-host read wrappers (src/utils/github.ts) -/

/-- A small JSON value universe for the parsed gh CLI outputs. -/
inductive JValue where
  | jnull
  | jbool (b : Bool)
  | jnum (n : Int)
  | jstr (s : List Char)
  | jarr (xs : List JValue)
  | jobj (fields : List (List Char × JValue))

/-- Field projection on a JSON object; anything else has no fields. -/
def JValue.getField : JValue → List Char → Option JValue
  | .jobj fields, k => (fields.find? (fun f => f.1 == k)).map (fun f => f.2)
  | _, _ => none

/-- Project a string field; a missing field or a non-string value would make
the JavaScript member access throw inside the try block. -/
def JValue.stringField (j : JValue) (k : List Char) : Option (List Char) :=
  match j.getField k with
  | some (.jstr s) => some s
  | _ => none

/-- Project an integer field; a missing field is undefined in JavaScript and
is stored as-is without throwing. -/
def JValue.intField (j : JValue) (k : List Char) : Option Int :=
  match j.getField k with
  | some (.jnum n) => some n
  | _ => none

/-- The raw issue-status record getIssueStatusAsync builds: the state string,
lowercased, stored without validation (the source casts it unchecked). -/
structure RawIssueStatus where
  state : List Char

/-- The raw PR record getPRForBranchAsync builds from the first array
element. -/
structure RawPRStatus where
  number : Option Int
  state : List Char
  url : Option (List Char)

/-- getIssueStatusAsync from src/utils/github.ts lines 127-137.  The Except
argument is the observable outcome of the gh subprocess plus JSON.parse: the
error case covers a nonzero exit, a network or auth failure, and unparsable
stdout, all of which throw inside the try and are caught.  A parsed value
without a string state field also throws at the toLowerCase call and is
caught.  Every failure maps to none; nothing escapes the function. -/
def getIssueStatusAsync (r : Except Unit JValue) : Option RawIssueStatus :=
  match r with
  | .error _ => none
  | .ok j =>
    match j.stringField "state".data with
    | some s => some ⟨s.map asciiToLower⟩
    | none => none

/-- getPRForBranchAsync from src/utils/github.ts lines 157-170: an empty
array means no PR and yields none; a non-array parse throws at the element
access and is caught; a first element without a string state throws at
toLowerCase and is caught; otherwise the record is built, with number and
url possibly absent (undefined member reads do not throw). -/
def getPRForBranchAsync (r : Except Unit JValue) : Option RawPRStatus :=
  match r with
  | .error _ => none
  | .ok (.jarr []) => none
  | .ok (.jarr (x :: _)) =>
    match x.stringField "state".data with
    | some s =>
      some { number := x.intField "number".data
           , state := s.map asciiToLower
           , url := x.stringField "url".data }
    | none => none
  | .ok _ => none

/-- listIssues from src/utils/github.ts lines 75-87: the parsed JSON is
returned as-is on success; any failure is caught and an empty list is
returned. -/
def listIssues (r : Except Unit JValue) : JValue :=
  match r with
  | .error _ => .jarr []
  | .ok j => j

/-! ## Solve create-or-attach phase (src/commands/solve.ts, lines 43-74) -/

/-- The observable effects of the worktree create-or-attach phase. -/
inductive SolveEffect where
  | worktreeAddExisting (path branch : List Char)
  | worktreeAddNewBranch (path branch base : List Char)
  | copyEnvFilesEffect (src dst : List Char)
  | symlinkNodeModulesEffect (src dst : List Char)
  | resumeExisting (path : List Char)
deriving DecidableEq, Repr

/-- The create-or-attach phase of solveCommand as an effect trace (solve.ts
lines 43-74).  When the computed worktree path exists on disk, the phase only
logs the resume message; otherwise it adds a worktree, attaching to the
existing branch when one exists and creating a new branch from the remote
base otherwise, and then copies environment files and symlinks node_modules.
In both cases control continues to the prompt-and-launch phase afterwards. -/
def solveWorktreePhase (worktreeExists branchAlreadyExists : Bool)
    (projectRoot worktreePath branch base : List Char) : List SolveEffect :=
  if worktreeExists then
    [.resumeExisting worktreePath]
  else
    (if branchAlreadyExists then [.worktreeAddExisting worktreePath branch]
     else [.worktreeAddNewBranch worktreePath branch base])
    ++ [.copyEnvFilesEffect projectRoot worktreePath,
        .symlinkNodeModulesEffect projectRoot worktreePath]

/-- Whether an effect creates a worktree or a branch. -/
def SolveEffect.isCreation : SolveEffect → Bool
  | .worktreeAddExisting _ _ => true
  | .worktreeAddNewBranch _ _ _ => true
  | _ => false

/-- Whether an effect copies environment files or links node_modules. -/
def SolveEffect.isSetup : SolveEffect → Bool
  | .copyEnvFilesEffect _ _ => true
  | .symlinkNodeModulesEffect _ _ => true
  | _ => false

/-! ## Single-issue clean (src/commands/clean.ts, cleanCommand) -/

/-- The externally shared state cleanCommand reads and mutates: the git
worktree registrations, the sibling directory entries, and the local
branches. -/
structure World where
  registered : List (List Char × List Char)
  entries : List DirEntry
  branches : List (List Char)
deriving DecidableEq, Repr

/-- Observable outcomes of cleanCommand. -/
inductive CleanOutcome where
  | notFound
  | cancelled
  | branchCancelled
  | branchDeleted
  | cleaned
deriving DecidableEq, Repr

/-- The branch search pattern of the fallback path, clean.ts line 275. -/
def branchPattern (n : Nat) : List Char :=
  "issue-".data ++ (Nat.repr n).data ++ ['-']

/-- The per-worktree teardown steps of cleanCommand (clean.ts lines 350-425)
on the shared state: remove the registration, delete the folder, and delete
the branch when one is known.  Window closing touches no modelled state. -/
def teardownWorktree (w : World) (parentDir : List Char) (wt : Worktree) : World :=
  { registered := w.registered.filter (fun e => !(e.1 == wt.path))
  , entries := w.entries.filter (fun e => !(pathJoin parentDir e.name == wt.path))
  , branches :=
      if wt.branch == ([] : List Char) then w.branches
      else w.branches.filter (fun b => !(b == wt.branch)) }

/-- cleanCommand from src/commands/clean.ts lines 263-429: discover the issue
worktrees, look up the requested issue number; when absent, fall back to a
branch-pattern search over the local branches; when that also fails, report
not-found and stop without touching any state.  The confirmation prompt
answer is a parameter, and the git-branch listing of the fallback path is
modelled at the collaborator boundary as the parsed list of local branch
names. -/
def cleanCommand (w : World) (pn parentDir : List Char) (n : Nat)
    (confirmAnswer : Bool) : World × CleanOutcome :=
  match (getIssueWorktrees pn parentDir (porcelainOutput w.registered)
      w.entries).find? (fun wt => wt.issueNumber == (Nat.repr n).data) with
  | some wt =>
    if confirmAnswer then (teardownWorktree w parentDir wt, .cleaned)
    else (w, .cancelled)
  | none =>
    match w.branches.find? (fun b => (branchPattern n).isPrefixOf b) with
    | some b =>
      if confirmAnswer then
        ({ w with branches := w.branches.filter (fun x => !(x == b)) }, .branchDeleted)
      else (w, .branchCancelled)
    | none => (w, .notFound)

/-! ## Invariants of the slug pipeline -/

example : slugify "Hello World".data = "hello-world".data := by decide
example : slugify "[Bug] Fix login issue".data = "fix-login-issue".data := by decide
example : slugify "Fix: issue #123!".data = "fix-issue-123".data := by decide
example : slugify "[FAQ] FAQ question".data = "faq-question".data := by decide

lemma isSlugChar_replaceNonAlnum (c : Char) : isSlugChar (replaceNonAlnum c) = true := by
  by_cases h : isLowerAlnum c = true
  · simp [replaceNonAlnum, isSlugChar, h]
  · simp only [replaceNonAlnum, if_neg h]
    decide

lemma asciiToLower_eq_self_of_isSlugChar (c : Char) (h : isSlugChar c = true) :
    asciiToLower c = c := by
  unfold asciiToLower
  rw [if_neg]
  intro hup
  simp only [isUpperAlpha, Bool.and_eq_true, decide_eq_true_eq] at hup
  simp only [isSlugChar, isLowerAlnum, Bool.or_eq_true, Bool.and_eq_true,
    decide_eq_true_eq, beq_iff_eq] at h
  rcases h with (⟨h1, h2⟩ | ⟨h1, h2⟩) | h1
  · omega
  · omega
  · subst h1
    revert hup
    decide

lemma replaceNonAlnum_eq_self_of_isSlugChar (c : Char) (h : isSlugChar c = true) :
    replaceNonAlnum c = c := by
  unfold replaceNonAlnum
  by_cases hl : isLowerAlnum c = true
  · rw [if_pos hl]
  · rw [if_neg hl]
    simp only [isSlugChar, Bool.or_eq_true, beq_iff_eq] at h
    rcases h with h | h
    · exact absurd h hl
    · exact h.symm

lemma isSlugChar_ne_lbracket (c : Char) (h : isSlugChar c = true) : c ≠ '[' := by
  intro he
  subst he
  revert h
  decide

lemma dash_isSlugChar : isSlugChar '-' = true := by decide

/-- Every character surviving squeezeDashes came from the input. -/
lemma mem_of_mem_squeezeDashes (c : Char) (l : List Char) (h : c ∈ squeezeDashes l) :
    c ∈ l := by
  induction l with
  | nil =>
    rw [squeezeDashes] at h
    exact h
  | cons a rest ih =>
    cases rest with
    | nil =>
      rw [squeezeDashes] at h
      exact h
    | cons d rest2 =>
      rw [squeezeDashes] at h
      split at h
      · exact List.mem_cons_of_mem a (ih h)
      · rcases List.mem_cons.mp h with h | h
        · exact h ▸ List.mem_cons_self _ _
        · exact List.mem_cons_of_mem a (ih h)

/-- squeezeDashes keeps the head character of a nonempty list. -/
lemma head?_squeezeDashes (a : Char) (rest : List Char) :
    (squeezeDashes (a :: rest)).head? = some a := by
  induction rest generalizing a with
  | nil => simp [squeezeDashes]
  | cons d rest2 ih =>
    rw [squeezeDashes]
    split
    · rename_i hcd
      simp only [Bool.and_eq_true, beq_iff_eq] at hcd
      rw [ih d, hcd.1, hcd.2]
    · simp

/-- The output of squeezeDashes has no adjacent hyphens. -/
lemma noDoubleDash_squeezeDashes (l : List Char) : noDoubleDash (squeezeDashes l) = true := by
  induction l with
  | nil => simp [squeezeDashes, noDoubleDash]
  | cons a rest ih =>
    cases rest with
    | nil => simp [squeezeDashes, noDoubleDash]
    | cons d rest2 =>
      rw [squeezeDashes]
      split
      · exact ih
      · rename_i hcd
        rw [noDoubleDash, Bool.and_eq_true]
        refine ⟨?_, ih⟩
        rw [head?_squeezeDashes d rest2]
        simp only [Bool.not_eq_true', Bool.and_eq_false_iff]
        simp only [Bool.and_eq_true, beq_iff_eq] at hcd
        by_cases ha : a = '-'
        · right
          simp only [Option.some.injEq, beq_eq_false_iff_ne, ne_eq]
          intro hd
          exact hcd ⟨ha, hd⟩
        · left
          simpa using ha

/-- squeezeDashes is the identity when there are no adjacent hyphens. -/
lemma squeezeDashes_eq_self (l : List Char) (h : noDoubleDash l = true) :
    squeezeDashes l = l := by
  induction l with
  | nil => rfl
  | cons a rest ih =>
    cases rest with
    | nil => rfl
    | cons d rest2 =>
      rw [noDoubleDash, Bool.and_eq_true] at h
      have h1 : ¬ ((a == '-' && d == '-') = true) := by
        intro hcd
        simp only [Bool.and_eq_true, beq_iff_eq] at hcd
        rw [hcd.1, hcd.2] at h
        simp at h
      rw [squeezeDashes, if_neg h1, ih h.2]

lemma mem_of_mem_dropLeadingDash (c : Char) (l : List Char) (h : c ∈ dropLeadingDash l) :
    c ∈ l := by
  cases l with
  | nil => exact h
  | cons a rest =>
    rw [dropLeadingDash] at h
    split at h
    · exact List.mem_cons_of_mem a h
    · exact h

lemma mem_of_mem_dropTrailingDash (c : Char) (l : List Char) (h : c ∈ dropTrailingDash l) :
    c ∈ l := by
  rw [dropTrailingDash] at h
  split at h
  · exact List.dropLast_subset l h
  · exact h

lemma mem_of_mem_trimDash (c : Char) (l : List Char) (h : c ∈ trimDash l) : c ∈ l :=
  mem_of_mem_dropLeadingDash c l (mem_of_mem_dropTrailingDash c _ h)

lemma noDoubleDash_dropLeadingDash (l : List Char) (h : noDoubleDash l = true) :
    noDoubleDash (dropLeadingDash l) = true := by
  cases l with
  | nil => exact h
  | cons a rest =>
    rw [noDoubleDash, Bool.and_eq_true] at h
    rw [dropLeadingDash]
    split
    · exact h.2
    · rw [noDoubleDash, Bool.and_eq_true]
      exact h

lemma noDoubleDash_dropLast (l : List Char) (h : noDoubleDash l = true) :
    noDoubleDash l.dropLast = true := by
  induction l with
  | nil => exact h
  | cons a rest ih =>
    cases rest with
    | nil => rfl
    | cons b rest2 =>
      rw [noDoubleDash, Bool.and_eq_true] at h
      rw [List.dropLast_cons₂, noDoubleDash, Bool.and_eq_true]
      refine ⟨?_, ih h.2⟩
      cases rest2 with
      | nil => simp
      | cons x xs =>
        rw [List.dropLast_cons₂]
        simpa using h.1

lemma noDoubleDash_dropTrailingDash (l : List Char) (h : noDoubleDash l = true) :
    noDoubleDash (dropTrailingDash l) = true := by
  rw [dropTrailingDash]
  split
  · exact noDoubleDash_dropLast l h
  · exact h

lemma noDoubleDash_trimDash (l : List Char) (h : noDoubleDash l = true) :
    noDoubleDash (trimDash l) = true :=
  noDoubleDash_dropTrailingDash _ (noDoubleDash_dropLeadingDash l h)

lemma headNotDash_dropLeadingDash (l : List Char) (h : noDoubleDash l = true) :
    (dropLeadingDash l).head? ≠ some '-' := by
  cases l with
  | nil => simp [dropLeadingDash]
  | cons a rest =>
    rw [noDoubleDash, Bool.and_eq_true] at h
    rw [dropLeadingDash]
    split
    · rename_i ha
      intro hcon
      rw [ha] at h
      have h1 := h.1
      rw [hcon] at h1
      simp at h1
    · rename_i ha
      simpa using ha

lemma head?_dropTrailingDash (l : List Char) :
    (dropTrailingDash l).head? = l.head? ∨ dropTrailingDash l = [] := by
  rw [dropTrailingDash]
  split
  · cases l with
    | nil => right; rfl
    | cons a rest =>
      cases rest with
      | nil => right; rfl
      | cons b rest2 =>
        left
        rw [List.dropLast_cons₂]
        rfl
  · left; rfl

lemma headNotDash_trimDash (l : List Char) (h : noDoubleDash l = true) :
    (trimDash l).head? ≠ some '-' := by
  rw [trimDash]
  rcases head?_dropTrailingDash (dropLeadingDash l) with he | he
  · rw [he]
    exact headNotDash_dropLeadingDash l h
  · rw [he]
    simp

lemma getLast?_dropLast_ne_dash (l : List Char) (h : noDoubleDash l = true)
    (hl : l.getLast? = some '-') : l.dropLast.getLast? ≠ some '-' := by
  induction l with
  | nil => simp at hl
  | cons a rest ih =>
    cases rest with
    | nil => simp
    | cons b rest2 =>
      rw [List.getLast?_cons_cons] at hl
      rw [noDoubleDash, Bool.and_eq_true] at h
      rw [List.dropLast_cons₂]
      cases hrest : (b :: rest2).dropLast with
      | nil =>
        have hb2 : rest2 = [] := by
          cases rest2 with
          | nil => rfl
          | cons x xs => simp [List.dropLast_cons₂] at hrest
        subst hb2
        simp only [List.getLast?_singleton, Option.some.injEq] at hl
        intro hcon
        simp only [List.getLast?_singleton, Option.some.injEq] at hcon
        rw [hcon, hl] at h
        simp at h
      | cons x xs =>
        rw [List.getLast?_cons_cons, ← hrest]
        exact ih h.2 hl

lemma lastNotDash_dropTrailingDash (l : List Char) (h : noDoubleDash l = true) :
    (dropTrailingDash l).getLast? ≠ some '-' := by
  rw [dropTrailingDash]
  split
  · rename_i hl
    exact getLast?_dropLast_ne_dash l h hl
  · rename_i hl
    exact hl

lemma lastNotDash_trimDash (l : List Char) (h : noDoubleDash l = true) :
    (trimDash l).getLast? ≠ some '-' :=
  lastNotDash_dropTrailingDash _ (noDoubleDash_dropLeadingDash l h)

lemma dropLeadingDash_eq_self (l : List Char) (h : l.head? ≠ some '-') :
    dropLeadingDash l = l := by
  cases l with
  | nil => rfl
  | cons a rest =>
    rw [dropLeadingDash, if_neg]
    intro ha
    exact h (by rw [ha]; rfl)

lemma trimDash_eq_self (l : List Char) (hh : l.head? ≠ some '-')
    (hl : l.getLast? ≠ some '-') : trimDash l = l := by
  rw [trimDash, dropLeadingDash_eq_self l hh, dropTrailingDash, if_neg hl]

/-! ## splitOnDash, joinDash and dedupAdj lemmas -/

lemma splitOnDash_ne_nil (l : List Char) : splitOnDash l ≠ [] := by
  induction l with
  | nil => simp [splitOnDash]
  | cons c rest ih =>
    rw [splitOnDash]
    split
    · simp
    · cases hs : splitOnDash rest with
      | nil => exact absurd hs ih
      | cons w ws => simp

lemma splitOnDash_cons_dash (rest : List Char) :
    splitOnDash ('-' :: rest) = [] :: splitOnDash rest := by
  rw [splitOnDash, if_pos rfl]

lemma splitOnDash_cons_head (a : Char) (rest : List Char) (ha : a ≠ '-') :
    ∃ w0 ws, splitOnDash rest = w0 :: ws ∧ splitOnDash (a :: rest) = (a :: w0) :: ws := by
  cases hs : splitOnDash rest with
  | nil => exact absurd hs (splitOnDash_ne_nil rest)
  | cons w0 ws =>
    exact ⟨w0, ws, rfl, by rw [splitOnDash, if_neg ha, hs, List.modifyHead_cons]⟩

lemma mem_of_mem_splitOnDash (l : List Char) :
    ∀ w ∈ splitOnDash l, ∀ c ∈ w, c ∈ l := by
  induction l with
  | nil =>
    intro w hw c hc
    rw [splitOnDash] at hw
    simp only [List.mem_singleton] at hw
    subst hw
    simp at hc
  | cons a rest ih =>
    intro w hw c hc
    rw [splitOnDash] at hw
    split at hw
    · rcases List.mem_cons.mp hw with h | h
      · subst h
        simp at hc
      · exact List.mem_cons_of_mem a (ih w h c hc)
    · cases hs : splitOnDash rest with
      | nil => exact absurd hs (splitOnDash_ne_nil rest)
      | cons w0 ws =>
        rw [hs, List.modifyHead_cons] at hw
        rcases List.mem_cons.mp hw with h | h
        · subst h
          rcases List.mem_cons.mp hc with h | h
          · exact h ▸ List.mem_cons_self a rest
          · exact List.mem_cons_of_mem a
              (ih w0 (by rw [hs]; exact List.mem_cons_self w0 ws) c h)
        · exact List.mem_cons_of_mem a
            (ih w (by rw [hs]; exact List.mem_cons_of_mem w0 h) c hc)

lemma not_dash_mem_splitOnDash (l : List Char) :
    ∀ w ∈ splitOnDash l, '-' ∉ w := by
  induction l with
  | nil =>
    intro w hw
    rw [splitOnDash] at hw
    simp only [List.mem_singleton] at hw
    subst hw
    simp
  | cons a rest ih =>
    intro w hw
    rw [splitOnDash] at hw
    split at hw
    · rcases List.mem_cons.mp hw with h | h
      · subst h
        simp
      · exact ih w h
    · rename_i ha
      cases hs : splitOnDash rest with
      | nil => exact absurd hs (splitOnDash_ne_nil rest)
      | cons w0 ws =>
        rw [hs, List.modifyHead_cons] at hw
        rcases List.mem_cons.mp hw with h | h
        · subst h
          intro hmem
          rcases List.mem_cons.mp hmem with h | h
          · exact ha h.symm
          · exact ih w0 (by rw [hs]; exact List.mem_cons_self w0 ws) h
        · exact ih w (by rw [hs]; exact List.mem_cons_of_mem w0 h)

lemma splitOnDash_tail_ne_nil (l : List Char) (hnd : noDoubleDash l = true)
    (hlast : l.getLast? ≠ some '-') :
    ∀ w ∈ (splitOnDash l).tail, w ≠ [] := by
  induction l with
  | nil =>
    intro w hw
    rw [splitOnDash] at hw
    simp at hw
  | cons a rest ih =>
    rw [noDoubleDash, Bool.and_eq_true] at hnd
    by_cases ha : a = '-'
    · subst ha
      rw [splitOnDash_cons_dash]
      intro w hw
      simp only [List.tail_cons] at hw
      cases rest with
      | nil => simp at hlast
      | cons b rest2 =>
        have hb : b ≠ '-' := by
          intro hb
          rw [hb] at hnd
          have := hnd.1
          simp at this
        obtain ⟨w0, ws, hs, hsplit⟩ := splitOnDash_cons_head b rest2 hb
        rw [hsplit] at hw
        rcases List.mem_cons.mp hw with h | h
        · subst h
          simp
        · exact ih hnd.2 (by rwa [List.getLast?_cons_cons] at hlast) w
            (by rw [hsplit]; simpa using h)
    · obtain ⟨w0, ws, hs, hsplit⟩ := splitOnDash_cons_head a rest ha
      rw [hsplit]
      intro w hw
      simp only [List.tail_cons] at hw
      cases rest with
      | nil =>
        rw [splitOnDash] at hs
        injection hs with h1 h2
        rw [← h2] at hw
        exact absurd hw (List.not_mem_nil w)
      | cons b rest2 =>
        refine ih hnd.2 (by rwa [List.getLast?_cons_cons] at hlast) w ?_
        rw [hs]
        simpa using hw

lemma splitOnDash_words_ne_nil (l : List Char) (hne : l ≠ [])
    (hnd : noDoubleDash l = true) (hhead : l.head? ≠ some '-')
    (hlast : l.getLast? ≠ some '-') :
    ∀ w ∈ splitOnDash l, w ≠ [] := by
  cases l with
  | nil => exact absurd rfl hne
  | cons a rest =>
    have ha : a ≠ '-' := by
      intro h
      exact hhead (by rw [h]; rfl)
    obtain ⟨w0, ws, hs, hsplit⟩ := splitOnDash_cons_head a rest ha
    rw [hsplit]
    intro w hw
    rcases List.mem_cons.mp hw with h | h
    · subst h
      simp
    · exact splitOnDash_tail_ne_nil (a :: rest) hnd hlast w (by rw [hsplit]; simpa using h)

lemma joinDash_cons_cons (w x : List Char) (xs : List (List Char)) :
    joinDash (w :: x :: xs) = w ++ '-' :: joinDash (x :: xs) := rfl

lemma mem_joinDash (ws : List (List Char)) (c : Char) (h : c ∈ joinDash ws) :
    (∃ w ∈ ws, c ∈ w) ∨ c = '-' := by
  induction ws with
  | nil =>
    rw [joinDash] at h
    simp at h
  | cons w tail ih =>
    cases tail with
    | nil =>
      rw [joinDash] at h
      exact Or.inl ⟨w, List.mem_cons_self w [], h⟩
    | cons x xs =>
      rw [joinDash_cons_cons] at h
      rcases List.mem_append.mp h with h | h
      · exact Or.inl ⟨w, List.mem_cons_self _ _, h⟩
      · rcases List.mem_cons.mp h with h | h
        · exact Or.inr h
        · rcases ih h with ⟨w', hw', hc⟩ | h
          · exact Or.inl ⟨w', List.mem_cons_of_mem w hw', hc⟩
          · exact Or.inr h

lemma joinDash_ne_nil_of_head (w : List Char) (tail : List (List Char)) (hw : w ≠ []) :
    joinDash (w :: tail) ≠ [] := by
  cases tail with
  | nil =>
    rw [joinDash]
    exact hw
  | cons x xs =>
    rw [joinDash_cons_cons]
    simp

lemma head?_joinDash (w : List Char) (tail : List (List Char)) :
    w ≠ [] → (joinDash (w :: tail)).head? = w.head? := by
  intro hw
  cases tail with
  | nil => rw [joinDash]
  | cons x xs =>
    rw [joinDash_cons_cons, List.head?_append]
    cases w with
    | nil => exact absurd rfl hw
    | cons c cw => simp

lemma getLast?_joinDash (ws : List (List Char)) (hws : ws ≠ [])
    (hnn : ∀ w ∈ ws, w ≠ []) :
    ∃ w ∈ ws, (joinDash ws).getLast? = w.getLast? := by
  induction ws with
  | nil => exact absurd rfl hws
  | cons w tail ih =>
    cases tail with
    | nil =>
      refine ⟨w, List.mem_cons_self _ _, ?_⟩
      rw [joinDash]
    | cons x xs =>
      obtain ⟨w', hw', he⟩ := ih (by simp) (fun u hu => hnn u (List.mem_cons_of_mem w hu))
      refine ⟨w', List.mem_cons_of_mem w hw', ?_⟩
      have hj : joinDash (x :: xs) ≠ [] :=
        joinDash_ne_nil_of_head x xs (hnn x (by simp))
      cases hjs : joinDash (x :: xs) with
      | nil => exact absurd hjs hj
      | cons y ys =>
        rw [joinDash_cons_cons, List.getLast?_append_of_ne_nil _ (by simp), hjs,
          List.getLast?_cons_cons, ← hjs, he]

lemma noDoubleDash_append_dashfree (w l : List Char) (hw : '-' ∉ w)
    (hl : noDoubleDash l = true) : noDoubleDash (w ++ l) = true := by
  induction w with
  | nil => simpa using hl
  | cons c cw ih =>
    rw [List.cons_append, noDoubleDash, Bool.and_eq_true]
    refine ⟨?_, ih (fun h => hw (List.mem_cons_of_mem c h))⟩
    have hc : c ≠ '-' := fun h => hw (h ▸ List.mem_cons_self c cw)
    simp [hc]

lemma noDoubleDash_joinDash (ws : List (List Char))
    (h : ∀ w ∈ ws, '-' ∉ w ∧ w ≠ []) :
    noDoubleDash (joinDash ws) = true := by
  induction ws with
  | nil => rfl
  | cons w tail ih =>
    cases tail with
    | nil =>
      rw [joinDash]
      have := noDoubleDash_append_dashfree w [] (h w (by simp)).1 rfl
      simpa using this
    | cons x xs =>
      rw [joinDash_cons_cons]
      apply noDoubleDash_append_dashfree _ _ (h w (by simp)).1
      rw [noDoubleDash, Bool.and_eq_true]
      refine ⟨?_, ih (fun u hu => h u (List.mem_cons_of_mem w hu))⟩
      rw [head?_joinDash x xs (h x (by simp)).2]
      cases hx : x with
      | nil => exact absurd hx (h x (by simp)).2
      | cons c cx =>
        have hc : c ≠ '-' := by
          intro hc
          exact (h x (by simp)).1 (by rw [hx, hc]; exact List.mem_cons_self '-' cx)
        simp [hc]

lemma mem_of_mem_dedupAdjAux (p : List Char) (ws : List (List Char)) :
    ∀ w ∈ dedupAdjAux p ws, w ∈ ws := by
  induction ws generalizing p with
  | nil =>
    intro w hw
    exact hw
  | cons x xs ih =>
    intro w hw
    rw [dedupAdjAux] at hw
    split at hw
    · exact List.mem_cons_of_mem x (ih x w hw)
    · rcases List.mem_cons.mp hw with h | h
      · exact h ▸ List.mem_cons_self x xs
      · exact List.mem_cons_of_mem x (ih x w h)

lemma mem_of_mem_dedupAdj (ws : List (List Char)) :
    ∀ w ∈ dedupAdj ws, w ∈ ws := by
  cases ws with
  | nil => intro w hw; exact hw
  | cons x xs =>
    intro w hw
    rw [dedupAdj] at hw
    rcases List.mem_cons.mp hw with h | h
    · exact h ▸ List.mem_cons_self x xs
    · exact List.mem_cons_of_mem x (mem_of_mem_dedupAdjAux x xs w h)

lemma head?_dedupAdjAux_ne (p : List Char) (ws : List (List Char)) :
    (dedupAdjAux p ws).head? ≠ some p := by
  induction ws generalizing p with
  | nil => simp [dedupAdjAux]
  | cons x xs ih =>
    rw [dedupAdjAux]
    split
    · rename_i hx
      rw [← hx]
      exact ih x
    · rename_i hx
      simp only [List.head?_cons]
      intro hcon
      exact hx (Option.some.inj hcon)

lemma noAdjDup_dedupAdjAux (p : List Char) (ws : List (List Char)) :
    noAdjDup (dedupAdjAux p ws) = true := by
  induction ws generalizing p with
  | nil => rfl
  | cons x xs ih =>
    rw [dedupAdjAux]
    split
    · exact ih x
    · rw [noAdjDup, Bool.and_eq_true]
      refine ⟨?_, ih x⟩
      have := head?_dedupAdjAux_ne x xs
      simp only [Bool.not_eq_true', beq_eq_false_iff_ne, ne_eq]
      exact this

lemma noAdjDup_dedupAdj (ws : List (List Char)) : noAdjDup (dedupAdj ws) = true := by
  cases ws with
  | nil => rfl
  | cons w ws =>
    rw [dedupAdj, noAdjDup, Bool.and_eq_true]
    refine ⟨?_, noAdjDup_dedupAdjAux w ws⟩
    simp only [Bool.not_eq_true', beq_eq_false_iff_ne, ne_eq]
    exact head?_dedupAdjAux_ne w ws

lemma dedupAdjAux_eq_self (p : List Char) (ws : List (List Char))
    (h : noAdjDup (p :: ws) = true) : dedupAdjAux p ws = ws := by
  induction ws generalizing p with
  | nil => rfl
  | cons x xs ih =>
    rw [noAdjDup, Bool.and_eq_true] at h
    have hx : x ≠ p := by
      intro hx
      have := h.1
      rw [hx] at this
      simp at this
    rw [dedupAdjAux, if_neg hx, ih x h.2]

lemma dedupAdj_eq_self (ws : List (List Char)) (h : noAdjDup ws = true) :
    dedupAdj ws = ws := by
  cases ws with
  | nil => rfl
  | cons w ws => rw [dedupAdj, dedupAdjAux_eq_self w ws h]

lemma splitOnDash_dashfree (w : List Char) (h : '-' ∉ w) : splitOnDash w = [w] := by
  induction w with
  | nil => rfl
  | cons c cw ih =>
    have hc : c ≠ '-' := fun hc => h (hc ▸ List.mem_cons_self c cw)
    rw [splitOnDash, if_neg hc, ih (fun hm => h (List.mem_cons_of_mem c hm))]
    rfl

lemma splitOnDash_append_dash (w t : List Char) (h : '-' ∉ w) :
    splitOnDash (w ++ '-' :: t) = w :: splitOnDash t := by
  induction w with
  | nil => rw [List.nil_append, splitOnDash_cons_dash]
  | cons c cw ih =>
    have hc : c ≠ '-' := fun hc => h (hc ▸ List.mem_cons_self c cw)
    rw [List.cons_append, splitOnDash, if_neg hc,
      ih (fun hm => h (List.mem_cons_of_mem c hm)), List.modifyHead_cons]

lemma splitOnDash_joinDash (ws : List (List Char)) (hws : ws ≠ [])
    (h : ∀ w ∈ ws, '-' ∉ w) :
    splitOnDash (joinDash ws) = ws := by
  induction ws with
  | nil => exact absurd rfl hws
  | cons w tail ih =>
    cases tail with
    | nil =>
      rw [joinDash]
      exact splitOnDash_dashfree w (h w (by simp))
    | cons x xs =>
      rw [joinDash_cons_cons, splitOnDash_append_dash _ _ (h w (by simp)),
        ih (by simp) (fun u hu => h u (List.mem_cons_of_mem w hu))]

/-! ## Canonical shape of preSlug outputs -/

lemma stripLeadingBracket_eq_self (l : List Char) (h : l.head? ≠ some '[') :
    stripLeadingBracket l = l := by
  cases l with
  | nil => rfl
  | cons c rest =>
    have hc : c ≠ '[' := by
      intro hc
      exact h (by rw [hc]; rfl)
    rw [stripLeadingBracket.eq_def]
    split
    · rename_i heq
      injection heq with h1 h2
      exact absurd h1 hc
    · rfl

lemma preSlug_chars (s : List Char) : ∀ c ∈ preSlug s, isSlugChar c = true := by
  intro c hc
  rcases mem_joinDash _ c hc with ⟨w, hw, hcw⟩ | rfl
  · have hw2 := mem_of_mem_dedupAdj _ w hw
    have hct := mem_of_mem_splitOnDash _ w hw2 c hcw
    have hcq := mem_of_mem_trimDash c _ hct
    have hcm := mem_of_mem_squeezeDashes c _ hcq
    rcases List.mem_map.mp hcm with ⟨c1, _, rfl⟩
    exact isSlugChar_replaceNonAlnum c1
  · exact dash_isSlugChar

lemma preSlug_trim_empty (s : List Char)
    (h : trimDash (squeezeDashes (((stripLeadingBracket s).map asciiToLower).map
      replaceNonAlnum)) = []) : preSlug s = [] := by
  unfold preSlug
  rw [h]
  rfl

lemma preSlug_head (s : List Char) : (preSlug s).head? ≠ some '-' := by
  unfold preSlug
  set t := trimDash (squeezeDashes (((stripLeadingBracket s).map asciiToLower).map
    replaceNonAlnum)) with ht
  cases hc : t with
  | nil => simp [splitOnDash, dedupAdj, dedupAdjAux, joinDash]
  | cons a rest =>
    have ha : a ≠ '-' := by
      have := headNotDash_trimDash (squeezeDashes (((stripLeadingBracket s).map
        asciiToLower).map replaceNonAlnum)) (noDoubleDash_squeezeDashes _)
      rw [← ht, hc] at this
      intro hcon
      exact this (by rw [hcon]; rfl)
    obtain ⟨w0, ws, _, hsplit⟩ := splitOnDash_cons_head a rest ha
    rw [hsplit, dedupAdj, head?_joinDash _ _ (by simp)]
    simp only [List.head?_cons]
    intro hcon
    exact ha (Option.some.inj hcon)

lemma preSlug_last (s : List Char) : (preSlug s).getLast? ≠ some '-' := by
  unfold preSlug
  set q := squeezeDashes (((stripLeadingBracket s).map asciiToLower).map replaceNonAlnum)
    with hq
  have hndq : noDoubleDash q = true := noDoubleDash_squeezeDashes _
  by_cases hce : trimDash q = []
  · rw [hce]
    simp [splitOnDash, dedupAdj, dedupAdjAux, joinDash]
  · have hnn : ∀ w ∈ splitOnDash (trimDash q), w ≠ [] :=
      splitOnDash_words_ne_nil _ hce (noDoubleDash_trimDash _ hndq)
        (headNotDash_trimDash _ hndq) (lastNotDash_trimDash _ hndq)
    have hds_ne : dedupAdj (splitOnDash (trimDash q)) ≠ [] := by
      cases hs : splitOnDash (trimDash q) with
      | nil => exact absurd hs (splitOnDash_ne_nil _)
      | cons w ws =>
        rw [dedupAdj]
        simp
    obtain ⟨w, hw, he⟩ := getLast?_joinDash (dedupAdj (splitOnDash (trimDash q))) hds_ne
      (fun w hw => hnn w (mem_of_mem_dedupAdj _ w hw))
    rw [he]
    have hdashfree : '-' ∉ w := not_dash_mem_splitOnDash _ w (mem_of_mem_dedupAdj _ w hw)
    intro hcon
    exact hdashfree (List.mem_of_getLast?_eq_some hcon)

/-- preSlug is idempotent: a joined, deduplicated, trimmed slug passes through
the whole pipeline unchanged. -/
lemma preSlug_idem (s : List Char) : preSlug (preSlug s) = preSlug s := by
  set q := squeezeDashes (((stripLeadingBracket s).map asciiToLower).map replaceNonAlnum)
    with hq
  have hndq : noDoubleDash q = true := noDoubleDash_squeezeDashes _
  by_cases hce : trimDash q = []
  · have h0 : preSlug s = [] := preSlug_trim_empty s (by rw [← hq, hce])
    rw [h0]
    rfl
  · set ds := dedupAdj (splitOnDash (trimDash q)) with hds
    have hout : preSlug s = joinDash ds := by
      unfold preSlug
      rw [← hq, hds]
    have hnn : ∀ w ∈ splitOnDash (trimDash q), w ≠ [] :=
      splitOnDash_words_ne_nil _ hce (noDoubleDash_trimDash _ hndq)
        (headNotDash_trimDash _ hndq) (lastNotDash_trimDash _ hndq)
    have hds_words : ∀ w ∈ ds, '-' ∉ w ∧ w ≠ [] := by
      intro w hw
      have hw2 := mem_of_mem_dedupAdj _ w hw
      exact ⟨not_dash_mem_splitOnDash _ w hw2, hnn w hw2⟩
    have hds_ne : ds ≠ [] := by
      rw [hds]
      cases hs : splitOnDash (trimDash q) with
      | nil => exact absurd hs (splitOnDash_ne_nil _)
      | cons w ws =>
        rw [dedupAdj]
        simp
    have hchars : ∀ c ∈ preSlug s, isSlugChar c = true := preSlug_chars s
    have hnd_out : noDoubleDash (preSlug s) = true := by
      rw [hout]
      exact noDoubleDash_joinDash ds hds_words
    have h1 : stripLeadingBracket (preSlug s) = preSlug s := by
      apply stripLeadingBracket_eq_self
      cases hps : preSlug s with
      | nil => simp
      | cons c r =>
        simp only [List.head?_cons]
        intro hcon
        have := hchars c (by rw [hps]; exact List.mem_cons_self c r)
        exact isSlugChar_ne_lbracket c this (Option.some.inj hcon)
    have h2 : (preSlug s).map asciiToLower = preSlug s := by
      have hcg : (preSlug s).map asciiToLower = (preSlug s).map id :=
        List.map_congr_left (fun c hcm =>
          asciiToLower_eq_self_of_isSlugChar c (hchars c hcm))
      rw [hcg, List.map_id]
    have h3 : (preSlug s).map replaceNonAlnum = preSlug s := by
      have hcg : (preSlug s).map replaceNonAlnum = (preSlug s).map id :=
        List.map_congr_left (fun c hcm =>
          replaceNonAlnum_eq_self_of_isSlugChar c (hchars c hcm))
      rw [hcg, List.map_id]
    have hstep : preSlug (preSlug s) =
        joinDash (dedupAdj (splitOnDash (preSlug s))) := by
      have e0 : preSlug (preSlug s) =
          joinDash (dedupAdj (splitOnDash (trimDash (squeezeDashes
            (((stripLeadingBracket (preSlug s)).map asciiToLower).map
              replaceNonAlnum))))) := rfl
      rw [e0, h1, h2, h3, squeezeDashes_eq_self _ hnd_out,
        trimDash_eq_self _ (preSlug_head s) (preSlug_last s)]
    rw [hstep, hout, splitOnDash_joinDash ds hds_ne (fun w hw => (hds_words w hw).1),
      dedupAdj_eq_self ds (noAdjDup_dedupAdj _)]

lemma head?_take_succ (n : Nat) (l : List Char) : (l.take (n + 1)).head? = l.head? := by
  cases l <;> simp

/-! ## Claims C4 and C5: slugify algebra and output shape -/

/-- C4 counterexample: slugify is not idempotent as claimed.  A title of 29
letters, a space, and one letter slugifies to a 31-character slug that is
truncated right after the hyphen, so the output ends in a hyphen and
re-slugifying it trims that hyphen away. -/
theorem slugify_not_idempotent :
    slugify (slugify (List.replicate 29 'a' ++ [' ', 'b']))
      ≠ slugify (List.replicate 29 'a' ++ [' ', 'b']) := by decide

/-- C4 (amended): slugify is idempotent on every input whose deduplicated,
hyphen-joined slug fits in 30 characters, that is, whenever the final
truncation does not cut anything; only truncation artifacts break
idempotence. -/
theorem slugify_idempotent_of_no_truncation (s : List Char)
    (h : (preSlug s).length ≤ 30) :
    slugify (slugify s) = slugify s := by
  show (preSlug ((preSlug s).take 30)).take 30 = (preSlug s).take 30
  rw [List.take_of_length_le h, preSlug_idem, List.take_of_length_le h]

/-- Witness for the amended C4 theorem at a concrete title. -/
theorem slugify_idempotent_of_no_truncation_witness :
    slugify (slugify "[Bug] Fix login issue".data) = slugify "[Bug] Fix login issue".data :=
  slugify_idempotent_of_no_truncation "[Bug] Fix login issue".data (by decide)

/-- C5 counterexample: a slugify output can end in a hyphen when the
30-character truncation cuts exactly at a word boundary. -/
theorem slugify_trailing_hyphen :
    (slugify (List.replicate 29 'a' ++ [' ', 'x'])).getLast? = some '-' := by decide

/-- C5 (amended): every slugify output has length at most 30, contains only
lowercase alphanumerics and hyphens, and never starts with a hyphen; it also
never ends with a hyphen provided the pre-truncation slug fits in 30
characters - a trailing hyphen can arise only from truncation cutting at a
hyphen. -/
theorem slugify_output_shape (s : List Char) :
    (slugify s).length ≤ 30
    ∧ (∀ c ∈ slugify s, isSlugChar c = true)
    ∧ (slugify s).head? ≠ some '-'
    ∧ ((preSlug s).length ≤ 30 → (slugify s).getLast? ≠ some '-') := by
  refine ⟨?_, ?_, ?_, ?_⟩
  · exact List.length_take_le 30 _
  · intro c hc
    exact preSlug_chars s c (List.take_subset 30 _ hc)
  · show ((preSlug s).take 30).head? ≠ some '-'
    have h30 : (30 : Nat) = 29 + 1 := rfl
    rw [h30, head?_take_succ]
    exact preSlug_head s
  · intro h
    show ((preSlug s).take 30).getLast? ≠ some '-'
    rw [List.take_of_length_le h]
    exact preSlug_last s

/-- Witness for the amended C5 theorem at a concrete title, with the
no-truncation hypothesis discharged. -/
theorem slugify_output_shape_witness :
    (slugify "Fix: issue #123!".data).length ≤ 30
    ∧ (∀ c ∈ slugify "Fix: issue #123!".data, isSlugChar c = true)
    ∧ (slugify "Fix: issue #123!".data).head? ≠ some '-'
    ∧ (slugify "Fix: issue #123!".data).getLast? ≠ some '-' := by
  obtain ⟨h1, h2, h3, h4⟩ := slugify_output_shape "Fix: issue #123!".data
  exact ⟨h1, h2, h3, h4 (by decide)⟩

/-! ## Claim C10: titles with no alphanumeric content -/

lemma squeezeDashes_all_dash (l : List Char) (h : ∀ c ∈ l, c = '-') :
    squeezeDashes l = [] ∨ squeezeDashes l = ['-'] := by
  induction l with
  | nil => exact Or.inl rfl
  | cons a rest ih =>
    cases rest with
    | nil =>
      right
      rw [squeezeDashes, h a (by simp)]
    | cons d r2 =>
      rw [squeezeDashes]
      have ha := h a (by simp)
      have hd := h d (by simp)
      rw [if_pos (by rw [ha, hd]; rfl)]
      exact ih (fun c hc => h c (List.mem_cons_of_mem a hc))

/-- C10: when a title has no alphanumeric character left after the leading
bracketed tag is stripped, slugify returns the empty string and the branch
name solveCommand builds is issue-N- with a trailing hyphen and an empty
slug segment. -/
theorem slugify_empty_slug_branch (n : Nat) (title : List Char)
    (h : ∀ c ∈ stripLeadingBracket title, isLowerAlnum (asciiToLower c) = false) :
    slugify title = [] ∧ (branchName n title).getLast? = some '-' := by
  have hm : ∀ c ∈ ((stripLeadingBracket title).map asciiToLower).map replaceNonAlnum,
      c = '-' := by
    intro c hc
    rcases List.mem_map.mp hc with ⟨c1, hc1, rfl⟩
    rcases List.mem_map.mp hc1 with ⟨c0, hc0, rfl⟩
    unfold replaceNonAlnum
    rw [if_neg]
    rw [h c0 hc0]
    simp
  have hs : slugify title = [] := by
    unfold slugify preSlug
    rcases squeezeDashes_all_dash _ hm with he | he
    · rw [he]
      rfl
    · rw [he]
      rfl
  refine ⟨hs, ?_⟩
  unfold branchName
  rw [hs]
  exact List.getLast?_concat _

/-- Witness for C10 at the bracket-only title of the claim. -/
theorem slugify_empty_slug_branch_witness :
    slugify "[Bug]".data = []
    ∧ (branchName 42 "[Bug]".data).getLast? = some '-' :=
  slugify_empty_slug_branch 42 "[Bug]".data (by decide)

/-! ## Claim C3: status label priority -/

/-- C3: getStatusLabel is total and applies its rules in strict priority
order: an empty branch always yields the orphaned label regardless of any
attached PR or issue data; otherwise a present PR status decides by its state
regardless of the issue state; otherwise a present issue status decides;
otherwise the label is unknown. -/
theorem getStatusLabel_priority (wt : WorktreeWithStatus) :
    (wt.branch = [] → getStatusLabel wt = .orphanedFolder)
    ∧ (wt.branch ≠ [] → ∀ pr, wt.prStatus = some pr →
        getStatusLabel wt =
          (match pr.state with
           | .prMerged => .prMergedLabel
           | .prOpen => .prOpenLabel
           | .prClosed => .prClosedLabel))
    ∧ (wt.branch ≠ [] → wt.prStatus = none → ∀ i, wt.issueStatus = some i →
        getStatusLabel wt =
          (match i.state with
           | .issueClosed => .issueClosedLabel
           | .issueOpen => .issueOpenLabel))
    ∧ (wt.branch ≠ [] → wt.prStatus = none → wt.issueStatus = none →
        getStatusLabel wt = .unknownLabel) := by
  refine ⟨?_, ?_, ?_, ?_⟩
  · intro h
    unfold getStatusLabel
    rw [if_pos h]
  · intro h pr hpr
    unfold getStatusLabel
    rw [if_neg h, hpr]
  · intro h hpr i hi
    unfold getStatusLabel
    rw [if_neg h, hpr, hi]
  · intro h hpr hi
    unfold getStatusLabel
    rw [if_neg h, hpr, hi]

/-- Witness for C3: an orphaned folder with merged-PR and closed-issue data
attached still reports orphaned, and a live branch with both a merged PR and
a closed issue reports the PR merged label. -/
theorem getStatusLabel_priority_witness :
    getStatusLabel ⟨⟨"p".data, [], "7".data⟩, some ⟨.issueClosed⟩, some ⟨1, .prMerged, []⟩⟩
      = .orphanedFolder
    ∧ getStatusLabel ⟨⟨"p".data, "issue-7-x".data, "7".data⟩, some ⟨.issueClosed⟩,
        some ⟨1, .prMerged, []⟩⟩ = .prMergedLabel := by
  constructor
  · exact (getStatusLabel_priority _).1 rfl
  · exact (getStatusLabel_priority ⟨⟨"p".data, "issue-7-x".data, "7".data⟩,
      some ⟨.issueClosed⟩, some ⟨1, .prMerged, []⟩⟩).2.1 (by decide) _ rfl

/-! ## Claim C2: bulk-clean pre-selection -/

/-- C2 counterexample: in the bulk-clean checkbox built by cleanAllCommand an
orphaned folder is not pre-checked - its PR status is never fetched, so the
merged test is false - contradicting the claim that the orphan is pre-checked
alongside the merged worktree. -/
theorem cleanAll_orphan_not_prechecked :
    (⟨⟨"p-issue-7-x".data, [], "7".data⟩, none, none⟩ : WorktreeWithStatus).branch = []
    ∧ cleanAllChecked ⟨⟨"p-issue-7-x".data, [], "7".data⟩, none, none⟩ = false := by
  decide

/-- C2 (amended): a worktree is pre-checked in the cleanAll checkbox exactly
when its fetched PR status is merged, and an orphaned folder, whose PR status
is never fetched, is therefore never pre-checked there; it is the separate
clean-merged command that always includes orphaned folders in its automatic
target list, as the concrete scenario with PR states merged, open and closed
plus one orphan shows. -/
theorem preselection_amended :
    (∀ wt : WorktreeWithStatus,
        cleanAllChecked wt = true ↔ ∃ pr, wt.prStatus = some pr ∧ pr.state = .prMerged)
    ∧ (∀ issueQ prQ (wt : Worktree), wt.branch = [] →
        cleanAllChecked (attachStatus issueQ prQ wt) = false)
    ∧ cleanMergedToClean
        [⟨⟨"pA".data, "issue-1-a".data, "1".data⟩, none, some ⟨11, .prMerged, []⟩⟩,
         ⟨⟨"pB".data, "issue-2-b".data, "2".data⟩, none, some ⟨12, .prOpen, []⟩⟩,
         ⟨⟨"pC".data, "issue-3-c".data, "3".data⟩, none, some ⟨13, .prClosed, []⟩⟩,
         ⟨⟨"pD".data, [], "4".data⟩, none, none⟩]
      = [⟨⟨"pA".data, "issue-1-a".data, "1".data⟩, none, some ⟨11, .prMerged, []⟩⟩,
         ⟨⟨"pD".data, [], "4".data⟩, none, none⟩] := by
  refine ⟨?_, ?_, ?_⟩
  · intro wt
    unfold cleanAllChecked isMergedPR
    cases hps : wt.prStatus with
    | none => simp
    | some pr =>
      constructor
      · intro h
        exact ⟨pr, rfl, by simpa using h⟩
      · rintro ⟨pr', hpr', hst⟩
        injection hpr' with hp
        subst hp
        simp [hst]
  · intro issueQ prQ wt h
    unfold cleanAllChecked isMergedPR attachStatus
    simp [h]
  · decide

/-- Witness for the amended C2 theorem: a concrete orphan attached through
the status-fetch step is not pre-checked. -/
theorem preselection_amended_witness :
    cleanAllChecked (attachStatus (fun _ => none) (fun _ => none)
      ⟨"p-issue-9-z".data, [], "9".data⟩) = false :=
  preselection_amended.2.1 (fun _ => none) (fun _ => none) _ rfl

/-! ## Claim C6: solve re-entry frame -/

/-- C6: when the computed worktree path already exists, the create-or-attach
phase of solve produces only the resume log - no worktree add, no branch
creation, no environment-file copy, no node_modules link - while the copy and
link effects are exactly part of the first-creation path. -/
theorem solve_reentry_frame (branchAlreadyExists : Bool)
    (projectRoot worktreePath branch base : List Char) :
    solveWorktreePhase true branchAlreadyExists projectRoot worktreePath branch base
      = [.resumeExisting worktreePath]
    ∧ (∀ e ∈ solveWorktreePhase true branchAlreadyExists projectRoot worktreePath
        branch base, e.isCreation = false ∧ e.isSetup = false)
    ∧ SolveEffect.copyEnvFilesEffect projectRoot worktreePath
        ∈ solveWorktreePhase false branchAlreadyExists projectRoot worktreePath branch base
    ∧ SolveEffect.symlinkNodeModulesEffect projectRoot worktreePath
        ∈ solveWorktreePhase false branchAlreadyExists projectRoot worktreePath branch base := by
  refine ⟨rfl, ?_, ?_, ?_⟩
  · intro e he
    have he2 : e = SolveEffect.resumeExisting worktreePath := by
      simpa [solveWorktreePhase] using he
    subst he2
    exact ⟨rfl, rfl⟩
  · unfold solveWorktreePhase
    cases branchAlreadyExists <;> simp
  · unfold solveWorktreePhase
    cases branchAlreadyExists <;> simp

/-! ## Claim C7: merge pre-selection -/

/-- C7 counterexample: an approved PR whose mergeable field is still UNKNOWN
has no reported merge conflicts, yet mergeCommand does not pre-select it. -/
theorem mergeChecked_unknown_counterexample :
    specMergeablePreselect
        ⟨5, [], "issue-5-x".data, some 5, some .approved, .unknownMergeable⟩ = true
    ∧ mergeChecked
        ⟨5, [], "issue-5-x".data, some 5, some .approved, .unknownMergeable⟩ = false := by
  decide

/-- C7 (amended): an open PR is pre-selected in the merge command exactly
when its review decision is APPROVED and its mergeable field is reported as
MERGEABLE; approved PRs whose mergeability is still unknown, and PRs with
changes requested, review required, no reviews, or conflicts, are not
pre-selected. -/
theorem mergeChecked_iff (pr : OpenPR) :
    mergeChecked pr = true
      ↔ pr.reviewDecision = some .approved ∧ pr.mergeable = .mergeableClean := by
  unfold mergeChecked
  cases hr : pr.reviewDecision with
  | none => simp
  | some d => cases d <;> simp

/-! ## Claim C9: host read degradation -/

/-- C9: the code-host read wrappers never let a failure escape: a failed or
unparsable gh invocation yields none for the issue-status and PR queries and
the empty array for the issue listing; a missing PR (empty result array)
yields none; a parsed value without the expected shape also yields none.
The wrappers are total functions of the subprocess outcome, so no error
propagates past their boundary. -/
theorem host_reads_degrade :
    getIssueStatusAsync (.error ()) = none
    ∧ getPRForBranchAsync (.error ()) = none
    ∧ getPRForBranchAsync (.ok (.jarr [])) = none
    ∧ getIssueStatusAsync (.ok .jnull) = none
    ∧ getPRForBranchAsync (.ok .jnull) = none
    ∧ listIssues (.error ()) = .jarr [] :=
  ⟨rfl, rfl, rfl, rfl, rfl, rfl⟩

/-! ## Claim C1: discovery reconciliation -/

lemma isPrefixOf_append_self (pre l : List Char) : pre.isPrefixOf (pre ++ l) = true := by
  induction pre with
  | nil => simp [List.isPrefixOf]
  | cons c cs ih => simp [List.isPrefixOf, ih]

lemma parseWorktreeLines_porcelain (pn : List Char)
    (registered : List (List Char × List Char)) (cp : List Char) :
    parseWorktreeLines pn (porcelainOutput registered) cp
      = registeredSpecFilter pn registered := by
  induction registered generalizing cp with
  | nil => rfl
  | cons e rest ih =>
    obtain ⟨p, b⟩ := e
    have hstep : parseWorktreeLines pn (porcelainOutput ((p, b) :: rest)) cp
        = (match matchIssueBranch b with
           | some num =>
             if listIncludes (pn ++ "-issue-".data) p then
               (⟨p, b, num⟩ : Worktree) :: parseWorktreeLines pn (porcelainOutput rest) p
             else parseWorktreeLines pn (porcelainOutput rest) p
           | none => parseWorktreeLines pn (porcelainOutput rest) p) := by
      show parseWorktreeLines pn (("worktree ".data ++ p) :: "HEAD 0000000".data
        :: ("branch refs/heads/".data ++ b) :: ([] : List Char) :: porcelainOutput rest)
        cp = _
      rw [parseWorktreeLines, if_pos (isPrefixOf_append_self _ _),
        List.drop_left' (by decide)]
      rw [parseWorktreeLines, if_neg (by decide), if_neg (by decide)]
      rw [parseWorktreeLines]
      rw [if_neg (show ¬("worktree ".data.isPrefixOf
        ("branch refs/heads/".data ++ b) = true) from by
          rw [show "worktree ".data.isPrefixOf ("branch refs/heads/".data ++ b)
            = false from rfl]
          exact Bool.false_ne_true)]
      rw [if_pos (isPrefixOf_append_self _ _), List.drop_left' (by decide)]
      have h4 : parseWorktreeLines pn (([] : List Char) :: porcelainOutput rest) p
          = parseWorktreeLines pn (porcelainOutput rest) p := by
        rw [parseWorktreeLines, if_neg (by decide), if_neg (by decide)]
      rw [h4]
    have hrhs : registeredSpecFilter pn ((p, b) :: rest)
        = (match matchIssueBranch b with
           | some num =>
             if listIncludes (pn ++ "-issue-".data) p then
               (⟨p, b, num⟩ : Worktree) :: registeredSpecFilter pn rest
             else registeredSpecFilter pn rest
           | none => registeredSpecFilter pn rest) := rfl
    rw [hstep, hrhs, ih p]

/-- C1: worktree discovery returns exactly the union of the declaratively
filtered git-registered worktrees (branch matching the issue pattern and path
containing projectName-issue-, with parsed issue number) and the orphaned
sibling directories not among the registered paths, emitted with an empty
branch - no duplicates and no omissions.  The second conjunct instantiates
the concrete scenario of the claim: registered entries A and B plus a
directory scan holding A, B, and orphan C yield exactly A and B with their
branches followed by C with no branch. -/
theorem getIssueWorktrees_eq_spec :
    (∀ (pn parentDir : List Char) (registered : List (List Char × List Char))
      (entries : List DirEntry),
      getIssueWorktrees pn parentDir (porcelainOutput registered) entries
        = discoverIssueWorktreesSpec pn parentDir registered entries)
    ∧ getIssueWorktrees "proj".data "/home".data
        (porcelainOutput
          [("/home/proj-issue-1-alpha".data, "issue-1-alpha".data),
           ("/home/proj-issue-2-beta".data, "issue-2-beta".data)])
        [⟨"proj-issue-1-alpha".data, true⟩,
         ⟨"proj-issue-2-beta".data, true⟩,
         ⟨"proj-issue-3-gamma".data, true⟩]
      = [⟨"/home/proj-issue-1-alpha".data, "issue-1-alpha".data, "1".data⟩,
         ⟨"/home/proj-issue-2-beta".data, "issue-2-beta".data, "2".data⟩,
         ⟨"/home/proj-issue-3-gamma".data, [], "3".data⟩] := by
  constructor
  · intro pn parentDir registered entries
    unfold getIssueWorktrees discoverIssueWorktreesSpec
    rw [parseWorktreeLines_porcelain]
  · decide

/-! ## Claim C8: teardown idempotence on a fully removed issue -/

/-- C8: invoking cleanCommand for an issue whose worktree, folder, and branch
have already been fully removed finds nothing to discover and no matching
branch, reports not-found, terminates normally, and leaves the whole shared
state unchanged - so a second teardown after a completed one is a no-op. -/
theorem cleanCommand_noop_when_removed (w : World) (pn parentDir : List Char)
    (n : Nat) (confirmAnswer : Bool)
    (h1 : ∀ wt ∈ getIssueWorktrees pn parentDir (porcelainOutput w.registered) w.entries,
        wt.issueNumber ≠ (Nat.repr n).data)
    (h2 : ∀ b ∈ w.branches, (branchPattern n).isPrefixOf b = false) :
    cleanCommand w pn parentDir n confirmAnswer = (w, .notFound) := by
  unfold cleanCommand
  have hf1 : (getIssueWorktrees pn parentDir (porcelainOutput w.registered)
      w.entries).find? (fun wt => wt.issueNumber == (Nat.repr n).data) = none := by
    rw [List.find?_eq_none]
    intro wt hwt hcon
    exact h1 wt hwt (by simpa using hcon)
  have hf2 : w.branches.find? (fun b => (branchPattern n).isPrefixOf b) = none := by
    rw [List.find?_eq_none]
    intro b hb hcon
    rw [h2 b hb] at hcon
    exact Bool.false_ne_true hcon
  rw [hf1, hf2]

/-- Witness for C8: on a world with no registrations, no folders, and no
branches, cleaning issue 7 reports not-found and changes nothing. -/
theorem cleanCommand_noop_witness :
    cleanCommand ⟨[], [], []⟩ "proj".data "/home".data 7 true
      = (⟨[], [], []⟩, .notFound) :=
  cleanCommand_noop_when_removed ⟨[], [], []⟩ "proj".data "/home".data 7 true
    (by decide) (by decide)

end ClaudeIssueSolver
